import Mathlib

/-!
Shallow embedding of the Shannon-information library (entropy.py).

Distributions are modelled as lists of exact rationals (the source operates on
Python floats; the numeric content of every claim is about the real-number
values computed). Entropy values live in ℝ because they involve base-2
logarithms. A function that can raise a Python exception (ZeroDivisionError
from dividing by a zero total, ValueError from min() on an empty list or
log of zero) is embedded as returning an Option, with none standing for a
raised exception.

The source checks isinstance(distribution, collections.Iterable) first; in
this typed embedding every input is a list, so that branch is vacuous and
is omitted.
-/

/-- Python 2 round(x): round half away from zero to an integer. -/
def pyRoundQ (x : ℚ) : ℤ :=
  if x < 0 then -⌊-x + 1 / 2⌋ else ⌊x + 1 / 2⌋

/-- Python round(x, 2): round to two decimal places, as used by the
probability-sum checks. -/
def round2 (x : ℚ) : ℚ :=
  (pyRoundQ (x * 100) : ℚ) / 100

/-- Python min() over a list of numbers; none models the ValueError raised
on an empty list. -/
def pyMin (l : List ℚ) : Option ℚ :=
  match l with
  | [] => none
  | x :: xs => some (xs.foldl min x)

/-- One step of the entropy accumulation loop:
if Px > 0 then HX = HX - Px * log2 Px. -/
noncomputable def entropyStep (HX : ℝ) (Px : ℚ) : ℝ :=
  if 0 < Px then HX - (Px : ℝ) * Real.logb 2 (Px : ℝ) else HX

/-- The accumulation loop over a list of (already normalized) masses,
starting from HX = 0. -/
noncomputable def entropyAcc (ps : List ℚ) : ℝ :=
  ps.foldl entropyStep 0

/-- The contribution of a single mass to the entropy sum. -/
noncomputable def entropyTermQ (p : ℚ) : ℝ :=
  if 0 < p then -((p : ℝ) * Real.logb 2 (p : ℝ)) else 0

/-- Normalization performed by the frequency-based functions:
Px = distribution[i] / totalFrequency. -/
def normalizeFreqs (l : List ℚ) : List ℚ :=
  l.map (fun f => f / l.sum)

/-- EntropyFromProbabilityDistribution from entropy.py. Validation in source
order: sum rounded to 2 decimals must be 1.0, then minimum entry must be
nonnegative. The min() call is reached only when the sum check passed, which
forces the list to be nonempty, so the none branch is unreachable. -/
noncomputable def EntropyFromProbabilityDistribution (l : List ℚ) : Option ℝ :=
  if round2 l.sum ≠ 1 then some (-1)
  else
    match pyMin l with
    | none => none
    | some m => if m < 0 then some (-1) else some (entropyAcc l)

/-- The bin-size validity check of the probability-based differential
entropy: only strictly negative bin sizes are rejected. -/
def probBinSizeCheckRejects (binSize : ℚ) : Prop :=
  binSize < 0

/-- The bin-size validity check of the frequency-based differential
entropy: all nonpositive bin sizes are rejected. -/
def freqBinSizeCheckRejects (binSize : ℚ) : Prop :=
  binSize ≤ 0

instance (b : ℚ) : Decidable (probBinSizeCheckRejects b) :=
  inferInstanceAs (Decidable (b < 0))

instance (b : ℚ) : Decidable (freqBinSizeCheckRejects b) :=
  inferInstanceAs (Decidable (b ≤ 0))

/-- DifferentialEntropyFromProbabilityDistribution from entropy.py.
Checks: round(sum * binSize, 2) == 1.0, then min ≥ 0, then binSize ≥ 0.
With more than one entry the loop accumulates over Px = p_i * binSize and
finally adds log2(binSize); math.log(0, 2) would raise (none), though that
point is unreachable because sum * 0 = 0 never rounds to 1. -/
noncomputable def DifferentialEntropyFromProbabilityDistribution
    (l : List ℚ) (binSize : ℚ) : Option ℝ :=
  if round2 (l.sum * binSize) ≠ 1 then some (-1)
  else
    match pyMin l with
    | none => none
    | some m =>
      if m < 0 then some (-1)
      else if probBinSizeCheckRejects binSize then some (-1)
      else if 1 < l.length then
        if binSize = 0 then none
        else some (entropyAcc (l.map (fun p => p * binSize)) + Real.logb 2 (binSize : ℝ))
      else some 0

/-- EntropyFromFrequencyDistribution from entropy.py. Checks: length ≥ 1,
then min ≥ 0. The loop divides every entry by totalFrequency with no zero
check: a zero total raises ZeroDivisionError on the first iteration (none). -/
noncomputable def EntropyFromFrequencyDistribution (l : List ℚ) : Option ℝ :=
  if l.length < 1 then some (-1)
  else
    match pyMin l with
    | none => none
    | some m =>
      if m < 0 then some (-1)
      else if l.sum = 0 then none
      else some (entropyAcc (normalizeFreqs l))

/-- DifferentialEntropyFromFrequencyDistribution from entropy.py. Checks:
length ≥ 1, min ≥ 0, binSize > 0. With more than one entry it normalizes by
the total (ZeroDivisionError when the total is zero) and adds log2(binSize). -/
noncomputable def DifferentialEntropyFromFrequencyDistribution
    (l : List ℚ) (binSize : ℚ) : Option ℝ :=
  if l.length < 1 then some (-1)
  else
    match pyMin l with
    | none => none
    | some m =>
      if m < 0 then some (-1)
      else if freqBinSizeCheckRejects binSize then some (-1)
      else if 1 < l.length then
        if l.sum = 0 then none
        else some (entropyAcc (normalizeFreqs l) + Real.logb 2 (binSize : ℝ))
      else some 0

/-- EntropyFromSampleDistribution from entropy.py, generic over the element
type. Counter(sorted(l)).values() yields the multiplicity of each distinct
value; iteration order does not affect the accumulated sum, so the counts
are taken along l.dedup. sampleSize ≥ 1 rules out a zero divisor. -/
noncomputable def EntropyFromSampleDistribution
    {α : Type} [DecidableEq α] (l : List α) : ℝ :=
  if l.length < 1 then -1
  else entropyAcc (l.dedup.map (fun v => (l.count v : ℚ) / (l.length : ℚ)))

/-- The list of row totals of the flat sequence viewed as an r × c matrix in
row-major order: listx[row] = Σ_col distribution[row * c + col]. -/
def rowTotals (l : List ℚ) (r c : ℕ) : List ℚ :=
  (List.range r).map (fun row => ((List.range c).map (fun col => l.getD (row * c + col) 0)).sum)

/-- The list of column totals of the flat sequence viewed as an r × c matrix
in row-major order: listy[col] = Σ_row distribution[row * c + col]. -/
def columnTotals (l : List ℚ) (r c : ℕ) : List ℚ :=
  (List.range c).map (fun col => ((List.range r).map (fun row => l.getD (row * c + col) 0)).sum)

/-- EntropyHXFromFrequencyDistribution from entropy.py: clamp rows to at
least 1, compute columns = len // rows, require columns * rows == len, then
delegate the row totals to EntropyFromFrequencyDistribution. All indices
are in range when the divisibility check passes, so getD is exact. -/
noncomputable def EntropyHXFromFrequencyDistribution (l : List ℚ) (rows : ℤ) : Option ℝ :=
  let r : ℕ := (max rows 1).toNat
  let c : ℕ := l.length / r
  if c * r = l.length then EntropyFromFrequencyDistribution (rowTotals l r c)
  else some (-1)

/-- EntropyHYFromFrequencyDistribution from entropy.py. The source calls
EntropyFromFrequencyDistribution inside the per-column loop, on the list of
column totals accumulated so far; an exception in any of those calls aborts
the whole computation (modelled by Option.bind), and each later call
overwrites the previous result. The initial value -1 is returned when there
are no columns. -/
noncomputable def EntropyHYFromFrequencyDistribution (l : List ℚ) (rows : ℤ) : Option ℝ :=
  let r : ℕ := (max rows 1).toNat
  let c : ℕ := l.length / r
  if c * r = l.length then
    (List.range c).foldl
      (fun st col =>
        st.bind (fun _ => EntropyFromFrequencyDistribution ((columnTotals l r c).take (col + 1))))
      (some (-1))
  else some (-1)

/-- Python 2 round(x) on a real argument: round half away from zero. -/
noncomputable def pyRound (x : ℝ) : ℤ :=
  if x < 0 then -⌊-x + 1 / 2⌋ else ⌊x + 1 / 2⌋

/-- RoundSF from entropy.py: zero maps to zero, otherwise round num to
-(floor(log10 |num|) - (sigfigs - 1)) decimal places. -/
noncomputable def RoundSF (num : ℝ) (sigfigs : ℤ) : ℝ :=
  if num = 0 then 0
  else
    (pyRound (num * 10 ^ (-(⌊Real.logb 10 |num|⌋ - (sigfigs - 1)))) : ℝ)
      / 10 ^ (-(⌊Real.logb 10 |num|⌋ - (sigfigs - 1)))

/-- Executable mirror of RoundSF on rational inputs, with the floor of the
base-10 logarithm computed by Int.log. -/
def RoundSFq (num : ℚ) (sigfigs : ℤ) : ℚ :=
  if num = 0 then 0
  else
    (pyRoundQ (num * 10 ^ (-(Int.log 10 |num| - (sigfigs - 1)))) : ℚ)
      / 10 ^ (-(Int.log 10 |num| - (sigfigs - 1)))

/-- The six-value dictionary returned by EntropyValuesFromFrequencyDistribution. -/
structure EntropyBundle where
  HXY : ℝ
  HX : ℝ
  HY : ℝ
  HXgY : ℝ
  HYgX : ℝ
  IXY : ℝ

/-- EntropyValuesFromFrequencyDistribution from entropy.py. HXY, HX and HY
are computed in that order (an exception in any of them aborts the call);
HYgX is HXY - HX only when HX is not the sentinel, HXgY is HXY - HY only
when HY is not the sentinel, IXY requires all three to differ from the
sentinel; every field is rounded to 3 significant figures. -/
noncomputable def EntropyValuesFromFrequencyDistribution
    (l : List ℚ) (rows : ℤ) : Option EntropyBundle :=
  (EntropyFromFrequencyDistribution l).bind fun hxy =>
  (EntropyHXFromFrequencyDistribution l rows).bind fun hx =>
  (EntropyHYFromFrequencyDistribution l rows).bind fun hy =>
  some
    { HXY := RoundSF hxy 3
      HX := RoundSF hx 3
      HY := RoundSF hy 3
      HXgY := RoundSF (if hy = -1 then -1 else hxy - hy) 3
      HYgX := RoundSF (if hx = -1 then -1 else hxy - hx) 3
      IXY := RoundSF (if hx ≠ -1 ∧ hy ≠ -1 ∧ hxy ≠ -1 then hx + hy - hxy else -1) 3 }

/-- The validation predicate of EntropyFromProbabilityDistribution: the sum
rounds to 1.0 at two decimals and no entry is negative. -/
def probValid (l : List ℚ) : Prop :=
  round2 l.sum = 1 ∧ ∀ x ∈ l, 0 ≤ x

instance (l : List ℚ) : Decidable (probValid l) :=
  inferInstanceAs (Decidable (round2 l.sum = 1 ∧ ∀ x ∈ l, 0 ≤ x))

/-- A single mass point: exactly one entry equal to 1 and all others 0. -/
def massPoint (l : List ℚ) : Prop :=
  l.count 1 = 1 ∧ ∀ x ∈ l, x = 0 ∨ x = 1

/-- The occurrence counts of the distinct values of a sample list. -/
def countsList {α : Type} [DecidableEq α] (l : List α) : List ℚ :=
  l.dedup.map (fun v => (l.count v : ℚ))

/-- Modelled from the spec: the clearer equivalent recommended for the
column-marginal entropy, computing all column sums first and calling
EntropyFromFrequencyDistribution once on the complete list. -/
noncomputable def EntropyHYColumnsFirst (l : List ℚ) (rows : ℤ) : Option ℝ :=
  let r : ℕ := (max rows 1).toNat
  let c : ℕ := l.length / r
  if c * r = l.length then EntropyFromFrequencyDistribution (columnTotals l r c)
  else some (-1)

/-- The rows of the row-major reshape of a flat sequence into an r × c
matrix, described with take and drop. -/
def reshapeRows (l : List ℚ) (r c : ℕ) : List (List ℚ) :=
  (List.range r).map (fun i => (l.drop (i * c)).take c)

lemma foldl_entropyStep (ps : List ℚ) (a : ℝ) :
    ps.foldl entropyStep a = a + (ps.map entropyTermQ).sum := by
  induction ps generalizing a with
  | nil => simp
  | cons p t ih =>
    simp only [List.foldl_cons, List.map_cons, List.sum_cons, ih]
    unfold entropyStep entropyTermQ
    by_cases hp : 0 < p
    · rw [if_pos hp, if_pos hp]; ring
    · rw [if_neg hp, if_neg hp]; ring

lemma entropyAcc_eq_sum (ps : List ℚ) :
    entropyAcc ps = (ps.map entropyTermQ).sum := by
  unfold entropyAcc
  rw [foldl_entropyStep, zero_add]

lemma entropyTermQ_nonneg {p : ℚ} (h1 : p ≤ 1) : 0 ≤ entropyTermQ p := by
  unfold entropyTermQ
  by_cases hp : 0 < p
  · rw [if_pos hp]
    have hp0 : (0 : ℝ) ≤ (p : ℝ) := by exact_mod_cast hp.le
    have hlog : Real.logb 2 (p : ℝ) ≤ 0 :=
      Real.logb_nonpos (by norm_num) hp0 (by exact_mod_cast h1)
    nlinarith
  · rw [if_neg hp]

lemma entropyAcc_nonneg {ps : List ℚ} (h : ∀ p ∈ ps, p ≤ 1) : 0 ≤ entropyAcc ps := by
  rw [entropyAcc_eq_sum]
  refine List.sum_nonneg ?_
  intro x hx
  rcases List.mem_map.1 hx with ⟨p, hp, rfl⟩
  exact entropyTermQ_nonneg (h p hp)

lemma entropyTermQ_eq_zero_iff {p : ℚ} (h0 : 0 ≤ p) (h1 : p ≤ 1) :
    entropyTermQ p = 0 ↔ p = 0 ∨ p = 1 := by
  unfold entropyTermQ
  by_cases hp : 0 < p
  · rw [if_pos hp]
    constructor
    · intro h
      rcases lt_or_eq_of_le h1 with hlt | rfl
      · exfalso
        have hlog : Real.logb 2 (p : ℝ) < 0 :=
          Real.logb_neg (by norm_num) (by exact_mod_cast hp) (by exact_mod_cast hlt)
        have hp0 : (0 : ℝ) < (p : ℝ) := by exact_mod_cast hp
        nlinarith
      · right; rfl
    · rintro (rfl | rfl)
      · exact absurd hp (lt_irrefl 0)
      · simp
  · rw [if_neg hp]
    have : p = 0 := le_antisymm (not_lt.1 hp) h0
    simp [this]

lemma foldl_min_lt_iff (xs : List ℚ) (x c : ℚ) :
    xs.foldl min x < c ↔ x < c ∨ ∃ y ∈ xs, y < c := by
  induction xs generalizing x with
  | nil => simp
  | cons a t ih =>
    simp only [List.foldl_cons, ih, min_lt_iff, List.mem_cons]
    constructor
    · rintro ((h | h) | ⟨y, hy, h⟩)
      · exact Or.inl h
      · exact Or.inr ⟨a, Or.inl rfl, h⟩
      · exact Or.inr ⟨y, Or.inr hy, h⟩
    · rintro (h | ⟨y, (rfl | hy), h⟩)
      · exact Or.inl (Or.inl h)
      · exact Or.inl (Or.inr h)
      · exact Or.inr ⟨y, hy, h⟩

lemma EFD_cons_eq (x : ℚ) (xs : List ℚ) :
    EntropyFromFrequencyDistribution (x :: xs) =
      if xs.foldl min x < 0 then some (-1)
      else if (x :: xs).sum = 0 then none
      else some (entropyAcc (normalizeFreqs (x :: xs))) := by
  unfold EntropyFromFrequencyDistribution pyMin
  simp

lemma EFD_nil : EntropyFromFrequencyDistribution [] = some (-1) := by
  unfold EntropyFromFrequencyDistribution
  simp

lemma EFD_eq_some_entropy {l : List ℚ} (h1 : l ≠ []) (h2 : ∀ x ∈ l, 0 ≤ x)
    (h3 : l.sum ≠ 0) :
    EntropyFromFrequencyDistribution l = some (entropyAcc (normalizeFreqs l)) := by
  rcases l with _ | ⟨x, xs⟩
  · exact absurd rfl h1
  · rw [EFD_cons_eq]
    have hmin : ¬ xs.foldl min x < 0 := by
      rw [foldl_min_lt_iff]
      push_neg
      exact ⟨h2 x (List.mem_cons_self x xs), fun y hy => h2 y (List.mem_cons_of_mem x hy)⟩
    rw [if_neg hmin, if_neg h3]

lemma EFD_neg_entry {l : List ℚ} (h2 : ∃ x ∈ l, x < 0) :
    EntropyFromFrequencyDistribution l = some (-1) := by
  rcases l with _ | ⟨x, xs⟩
  · simp at h2
  · rw [EFD_cons_eq]
    have hmin : xs.foldl min x < 0 := by
      rw [foldl_min_lt_iff]
      rcases h2 with ⟨y, hy, hneg⟩
      rcases List.mem_cons.1 hy with rfl | hy
      · exact Or.inl hneg
      · exact Or.inr ⟨y, hy, hneg⟩
    rw [if_pos hmin]

lemma EFD_none_iff {l : List ℚ} :
    EntropyFromFrequencyDistribution l = none ↔
      l ≠ [] ∧ (∀ x ∈ l, 0 ≤ x) ∧ l.sum = 0 := by
  rcases l with _ | ⟨x, xs⟩
  · simp [EFD_nil]
  · rw [EFD_cons_eq]
    by_cases hmin : xs.foldl min x < 0
    · rw [if_pos hmin]
      simp only [reduceCtorEq, false_iff, not_and]
      intro _ hall
      exfalso
      rw [foldl_min_lt_iff] at hmin
      rcases hmin with h | ⟨y, hy, h⟩
      · exact absurd (hall x (List.mem_cons_self x xs)) (not_le.2 h)
      · exact absurd (hall y (List.mem_cons_of_mem x hy)) (not_le.2 h)
    · rw [if_neg hmin]
      have hall : ∀ y ∈ x :: xs, 0 ≤ y := by
        rw [foldl_min_lt_iff] at hmin
        push_neg at hmin
        intro y hy
        rcases List.mem_cons.1 hy with rfl | hy
        · exact hmin.1
        · exact hmin.2 y hy
      by_cases hsum : (x :: xs).sum = 0
      · rw [if_pos hsum]
        exact ⟨fun _ => ⟨List.cons_ne_nil x xs, hall, hsum⟩, fun _ => rfl⟩
      · rw [if_neg hsum]
        constructor
        · intro h
          simp at h
        · rintro ⟨-, -, h⟩
          exact absurd h hsum

lemma EFD_isSome_of_mem {l : List ℚ} {x : ℚ} (hx : x ∈ l) (hne : x ≠ 0) :
    ∃ v, EntropyFromFrequencyDistribution l = some v := by
  cases h : EntropyFromFrequencyDistribution l with
  | some v => exact ⟨v, rfl⟩
  | none =>
    exfalso
    rw [EFD_none_iff] at h
    rcases h with ⟨-, hall, hsum⟩
    have hpos : 0 < x := lt_of_le_of_ne (hall x hx) (Ne.symm hne)
    have hle : x ≤ l.sum := List.single_le_sum hall x hx
    rw [hsum] at hle
    exact absurd hle (not_le.2 hpos)

lemma pyRound_ratCast (q : ℚ) : pyRound (q : ℝ) = pyRoundQ q := by
  unfold pyRound pyRoundQ
  by_cases h : q < 0
  · rw [if_pos (by exact_mod_cast h), if_pos h]
    congr 1
    rw [show -(q : ℝ) + 1 / 2 = ((-q + 1 / 2 : ℚ) : ℝ) by push_cast; ring, Rat.floor_cast]
  · rw [if_neg (by exact_mod_cast h), if_neg h]
    rw [show (q : ℝ) + 1 / 2 = ((q + 1 / 2 : ℚ) : ℝ) by push_cast; ring, Rat.floor_cast]

lemma intLog_ratCast {q : ℚ} (hq : 0 < q) : Int.log 10 ((q : ℝ)) = Int.log 10 q := by
  have hq' : (0 : ℝ) < (q : ℝ) := by exact_mod_cast hq
  have hb : 1 < 10 := by norm_num
  apply le_antisymm
  · have h1 : ((q : ℝ)) < ((10 : ℕ) : ℝ) ^ (Int.log 10 q + 1) := by
      have h0 := Int.lt_zpow_succ_log_self (R := ℚ) hb q
      have : ((q : ℝ)) < (((10 : ℕ) : ℚ) ^ (Int.log 10 q + 1) : ℚ) := by exact_mod_cast h0
      calc ((q : ℝ)) < ((((10 : ℕ) : ℚ) ^ (Int.log 10 q + 1) : ℚ) : ℝ) := this
        _ = ((10 : ℕ) : ℝ) ^ (Int.log 10 q + 1) := by push_cast; ring
    have h2 := (Int.lt_zpow_iff_log_lt (R := ℝ) hb hq').1 h1
    omega
  · have h2 : ((10 : ℕ) : ℝ) ^ (Int.log 10 q) ≤ (q : ℝ) := by
      have h0 := Int.zpow_log_le_self (R := ℚ) hb hq
      calc ((10 : ℕ) : ℝ) ^ (Int.log 10 q) = ((((10 : ℕ) : ℚ) ^ (Int.log 10 q) : ℚ) : ℝ) := by
            push_cast; ring
        _ ≤ (q : ℝ) := by exact_mod_cast h0
    exact (Int.zpow_le_iff_le_log (R := ℝ) hb hq').1 h2

lemma floor_logb_abs_ratCast {q : ℚ} (hq : q ≠ 0) :
    ⌊Real.logb 10 |(q : ℝ)|⌋ = Int.log 10 |q| := by
  have habs : |(q : ℝ)| = ((|q| : ℚ) : ℝ) := by push_cast; ring
  have h10 : (10 : ℝ) = ((10 : ℕ) : ℝ) := by norm_num
  rw [habs, h10, Real.floor_logb_natCast (by positivity)]
  exact intLog_ratCast (abs_pos.2 hq)

lemma RoundSF_ratCast (q : ℚ) (s : ℤ) :
    RoundSF ((q : ℚ) : ℝ) s = ((RoundSFq q s : ℚ) : ℝ) := by
  unfold RoundSF RoundSFq
  by_cases hq : q = 0
  · subst hq; simp
  · have hq' : ((q : ℝ)) ≠ 0 := by exact_mod_cast hq
    rw [if_neg hq', if_neg hq, floor_logb_abs_ratCast hq]
    have harg : (q : ℝ) * (10 : ℝ) ^ (-(Int.log 10 |q| - (s - 1))) =
        ((q * 10 ^ (-(Int.log 10 |q| - (s - 1))) : ℚ) : ℝ) := by
      push_cast; ring
    rw [harg, pyRound_ratCast]
    push_cast
    ring

lemma round2_natCast (k : ℕ) : round2 (k : ℚ) = k := by
  unfold round2 pyRoundQ
  rw [if_neg (not_lt.2 (by positivity))]
  have h1 : (k : ℚ) * 100 + 1 / 2 = ((k * 100 : ℕ) : ℤ) + (1 / 2 : ℚ) := by push_cast; ring
  rw [h1, Int.floor_int_add]
  have h2 : ⌊(1 / 2 : ℚ)⌋ = 0 := by norm_num
  rw [h2]
  push_cast
  field_simp

lemma logb_two_half : Real.logb 2 ((1 / 2 : ℚ) : ℝ) = -1 := by
  have h : ((1 / 2 : ℚ) : ℝ) = (2 : ℝ)⁻¹ := by norm_num
  rw [h, Real.logb_inv, Real.logb_self_eq_one (by norm_num)]

lemma entropyTermQ_zero : entropyTermQ 0 = 0 := by
  unfold entropyTermQ
  norm_num

lemma entropyTermQ_one : entropyTermQ 1 = 0 := by
  unfold entropyTermQ
  norm_num

lemma entropyTermQ_half : entropyTermQ (1 / 2) = 1 / 2 := by
  unfold entropyTermQ
  rw [if_pos (by norm_num), logb_two_half]
  push_cast
  ring

lemma EFD_pair_two_two : EntropyFromFrequencyDistribution [2, 2] = some 1 := by
  rw [EFD_eq_some_entropy (by simp) (by norm_num) (by norm_num)]
  have h : normalizeFreqs [2, 2] = [1 / 2, 1 / 2] := by
    norm_num [normalizeFreqs]
  rw [h, entropyAcc_eq_sum]
  simp only [List.map_cons, List.map_nil, List.sum_cons, List.sum_nil, add_zero]
  rw [entropyTermQ_half]
  norm_num

lemma EFD_pair_one_one : EntropyFromFrequencyDistribution [1, 1] = some 1 := by
  rw [EFD_eq_some_entropy (by simp) (by norm_num) (by norm_num)]
  have h : normalizeFreqs [1, 1] = [1 / 2, 1 / 2] := by
    norm_num [normalizeFreqs]
  rw [h, entropyAcc_eq_sum]
  simp only [List.map_cons, List.map_nil, List.sum_cons, List.sum_nil, add_zero]
  rw [entropyTermQ_half]
  norm_num

lemma EFD_single_two : EntropyFromFrequencyDistribution [2] = some 0 := by
  rw [EFD_eq_some_entropy (by simp) (by norm_num) (by norm_num)]
  have h : normalizeFreqs [2] = [1] := by
    norm_num [normalizeFreqs]
  rw [h, entropyAcc_eq_sum]
  simp only [List.map_cons, List.map_nil, List.sum_cons, List.sum_nil, add_zero]
  rw [entropyTermQ_one]

lemma EFD_two_zero : EntropyFromFrequencyDistribution [2, 0] = some 0 := by
  rw [EFD_eq_some_entropy (by simp) (by norm_num) (by norm_num)]
  have h : normalizeFreqs [2, 0] = [1, 0] := by
    norm_num [normalizeFreqs]
  rw [h, entropyAcc_eq_sum]
  simp only [List.map_cons, List.map_nil, List.sum_cons, List.sum_nil, add_zero]
  rw [entropyTermQ_one, entropyTermQ_zero]
  norm_num

lemma EFD_zero_two : EntropyFromFrequencyDistribution [0, 2] = some 0 := by
  rw [EFD_eq_some_entropy (by simp) (by norm_num) (by norm_num)]
  have h : normalizeFreqs [0, 2] = [0, 1] := by
    norm_num [normalizeFreqs]
  rw [h, entropyAcc_eq_sum]
  simp only [List.map_cons, List.map_nil, List.sum_cons, List.sum_nil, add_zero]
  rw [entropyTermQ_one, entropyTermQ_zero]
  norm_num

lemma EFD_single_zero : EntropyFromFrequencyDistribution [0] = none := by
  rw [EFD_none_iff]
  refine ⟨by simp, ?_, by simp⟩
  intro x hx
  simp only [List.mem_singleton] at hx
  simp [hx]

lemma RoundSF_of_rat {q r : ℚ} (s : ℤ) (h : RoundSFq q s = r) :
    RoundSF ((q : ℚ) : ℝ) s = ((r : ℚ) : ℝ) := by
  rw [RoundSF_ratCast, h]

lemma RoundSF_zero (s : ℤ) : RoundSF 0 s = 0 := by
  unfold RoundSF
  simp

lemma RoundSFq_neg_one : RoundSFq (-1) 3 = -1 := by
  unfold RoundSFq pyRoundQ
  norm_num

lemma RoundSFq_one : RoundSFq 1 3 = 1 := by
  unfold RoundSFq pyRoundQ
  norm_num

lemma RoundSF_neg_one : RoundSF (-1) 3 = -1 := by
  have h := RoundSF_of_rat (q := -1) (r := -1) 3 RoundSFq_neg_one
  simpa using h

lemma RoundSF_one : RoundSF 1 3 = 1 := by
  have h := RoundSF_of_rat (q := 1) (r := 1) 3 RoundSFq_one
  simpa using h

lemma intLog10_two : Int.log 10 (2 : ℚ) = 0 := by
  rw [Int.log_of_one_le_right 10 (by norm_num)]
  norm_num

lemma RoundSFq_neg_two : RoundSFq (-2) 3 = -2 := by
  unfold RoundSFq pyRoundQ
  rw [show |(-2 : ℚ)| = (2 : ℚ) by norm_num, intLog10_two]
  norm_num

lemma RoundSF_neg_two : RoundSF (-2) 3 = -2 := by
  have h := RoundSF_of_rat (q := -2) (r := -2) 3 RoundSFq_neg_two
  simpa using h

lemma EFPD_eq (l : List ℚ) :
    EntropyFromProbabilityDistribution l =
      if probValid l then some (entropyAcc l) else some (-1) := by
  unfold EntropyFromProbabilityDistribution
  by_cases hsum : round2 l.sum = 1
  · rw [if_neg (not_not_intro hsum)]
    rcases l with _ | ⟨x, xs⟩
    · exfalso
      have h0 : round2 (0 : ℚ) = 0 := by norm_num [round2, pyRoundQ]
      rw [List.sum_nil, h0] at hsum
      exact absurd hsum (by norm_num)
    · simp only [pyMin]
      by_cases hmin : xs.foldl min x < 0
      · rw [if_pos hmin, if_neg]
        intro hv
        rw [foldl_min_lt_iff] at hmin
        rcases hmin with h | ⟨y, hy, h⟩
        · exact absurd (hv.2 x (List.mem_cons_self x xs)) (not_le.2 h)
        · exact absurd (hv.2 y (List.mem_cons_of_mem x hy)) (not_le.2 h)
      · rw [if_neg hmin, if_pos]
        refine ⟨hsum, ?_⟩
        intro y hy
        rw [foldl_min_lt_iff] at hmin
        push_neg at hmin
        rcases List.mem_cons.1 hy with rfl | hy
        · exact hmin.1
        · exact hmin.2 y hy
  · rw [if_pos hsum, if_neg (fun hv => hsum hv.1)]

lemma entropyAcc_eq_neg_filtered (ps : List ℚ) :
    entropyAcc ps =
      -(((ps.filter (fun p => 0 < p)).map
          (fun p : ℚ => (p : ℝ) * Real.logb 2 (p : ℝ))).sum) := by
  rw [entropyAcc_eq_sum]
  induction ps with
  | nil => simp
  | cons p t ih =>
    rw [List.map_cons, List.sum_cons, ih]
    by_cases hp : 0 < p
    · rw [List.filter_cons_of_pos (by simpa using hp), List.map_cons, List.sum_cons]
      unfold entropyTermQ
      rw [if_pos hp]
      ring
    · rw [List.filter_cons_of_neg (by simpa using hp)]
      unfold entropyTermQ
      rw [if_neg hp]
      ring

lemma sum_eq_count_one {l : List ℚ} (h : ∀ x ∈ l, x = 0 ∨ x = 1) :
    l.sum = (l.count 1 : ℚ) := by
  induction l with
  | nil => simp
  | cons x t ih =>
    have hx := h x (List.mem_cons_self x t)
    have ht := ih (fun y hy => h y (List.mem_cons_of_mem x hy))
    rcases hx with rfl | rfl
    · rw [List.sum_cons, ht, List.count_cons]
      norm_num
    · rw [List.sum_cons, ht, List.count_cons]
      norm_num
      ring

/-- C1: for every input accepted by the validation of
EntropyFromProbabilityDistribution (iterable check vacuous in the typed
embedding; sum rounded to 2 decimals equal to 1.0; minimum entry ≥ 0) the
function returns exactly -Σ p·log2 p over the entries with p > 0, unrounded;
for every input failing a check it returns -1. -/
theorem entropyFromProbabilityDistribution_spec (l : List ℚ) :
    EntropyFromProbabilityDistribution l =
      if probValid l then
        some (-(((l.filter (fun p => 0 < p)).map
            (fun p : ℚ => (p : ℝ) * Real.logb 2 (p : ℝ))).sum))
      else some (-1) := by
  rw [EFPD_eq]
  by_cases h : probValid l
  · rw [if_pos h, if_pos h, entropyAcc_eq_neg_filtered]
  · rw [if_neg h, if_neg h]

/-- C3 (amended): for every accepted probability distribution all of whose
entries are at most 1, the returned entropy is nonnegative and equals 0
exactly when the distribution is a single mass point. The restriction to
entries ≤ 1 is forced: the validation tolerates sums up to 1.005, so a
single entry slightly above 1 is accepted and produces a negative entropy. -/
theorem entropy_nonneg_and_zero_iff_massPoint (l : List ℚ)
    (hv : probValid l) (hle : ∀ x ∈ l, x ≤ 1) :
    ∃ H, EntropyFromProbabilityDistribution l = some H ∧ 0 ≤ H ∧
      (H = 0 ↔ massPoint l) := by
  refine ⟨entropyAcc l, ?_, ?_, ?_⟩
  · rw [EFPD_eq, if_pos hv]
  · exact entropyAcc_nonneg hle
  · rw [entropyAcc_eq_sum]
    constructor
    · intro h0
      have hterms : ∀ t ∈ l.map entropyTermQ, t = 0 := by
        intro t ht
        refine List.all_zero_of_le_zero_le_of_sum_eq_zero ?_ h0 ht
        intro u hu
        rcases List.mem_map.1 hu with ⟨p, hp, rfl⟩
        exact entropyTermQ_nonneg (hle p hp)
      have hent : ∀ p ∈ l, p = 0 ∨ p = 1 := by
        intro p hp
        have hz := hterms (entropyTermQ p) (List.mem_map_of_mem _ hp)
        exact (entropyTermQ_eq_zero_iff (hv.2 p hp) (hle p hp)).1 hz
      refine ⟨?_, hent⟩
      have hsum : l.sum = (l.count 1 : ℚ) := sum_eq_count_one hent
      have hone := hv.1
      rw [hsum, round2_natCast] at hone
      exact_mod_cast hone
    · rintro ⟨hcount, hent⟩
      refine List.sum_eq_zero ?_
      intro t ht
      rcases List.mem_map.1 ht with ⟨p, hp, rfl⟩
      rcases hent p hp with rfl | rfl
      · exact entropyTermQ_zero
      · exact entropyTermQ_one

/-- C3 counterexample: the distribution [1.004] passes validation (its sum
rounds to 1.00 at two decimals and it has no negative entry) but its
returned entropy -(1.004·log2 1.004) is strictly negative, refuting the
claim that every accepted distribution has nonnegative entropy. -/
theorem entropy_negative_counterexample :
    ∃ H, EntropyFromProbabilityDistribution [(251 / 250 : ℚ)] = some H ∧ H < 0 := by
  refine ⟨entropyAcc [(251 / 250 : ℚ)], ?_, ?_⟩
  · rw [EFPD_eq, if_pos]
    constructor
    · norm_num [round2, pyRoundQ]
    · intro x hx
      simp only [List.mem_singleton] at hx
      rw [hx]
      norm_num
  · rw [entropyAcc_eq_sum]
    simp only [List.map_cons, List.map_nil, List.sum_cons, List.sum_nil, add_zero]
    unfold entropyTermQ
    rw [if_pos (by norm_num)]
    have h1 : (1 : ℝ) < ((251 / 250 : ℚ) : ℝ) := by norm_num
    have hlog : 0 < Real.logb 2 ((251 / 250 : ℚ) : ℝ) := Real.logb_pos (by norm_num) h1
    have hp : (0 : ℝ) < ((251 / 250 : ℚ) : ℝ) := by norm_num
    nlinarith

/-- C3 witness: the amended theorem applied to the accepted mass point
distribution [1, 0]. -/
theorem entropy_nonneg_and_zero_iff_massPoint_witness :
    ∃ H, EntropyFromProbabilityDistribution [(1 : ℚ), 0] = some H ∧ 0 ≤ H ∧
      (H = 0 ↔ massPoint [(1 : ℚ), 0]) :=
  entropy_nonneg_and_zero_iff_massPoint [1, 0]
    (by constructor
        · norm_num [round2, pyRoundQ]
        · intro x hx
          rcases List.mem_cons.1 hx with rfl | hx
          · norm_num
          · simp only [List.mem_singleton] at hx
            rw [hx])
    (by intro x hx
        rcases List.mem_cons.1 hx with rfl | hx
        · norm_num
        · simp only [List.mem_singleton] at hx
          rw [hx]
          norm_num)

/-- C9: the bin-size checks are asymmetric. The frequency-based differential
entropy returns -1 for every binSize ≤ 0 and its check rejects 0; the
probability-based one returns -1 for every binSize < 0, and its bin-size
check does not reject binSize = 0. -/
theorem binSizeCheck_asymmetry :
    (∀ (l : List ℚ) (b : ℚ), freqBinSizeCheckRejects b →
        DifferentialEntropyFromFrequencyDistribution l b = some (-1)) ∧
    (∀ (l : List ℚ) (b : ℚ), probBinSizeCheckRejects b →
        DifferentialEntropyFromProbabilityDistribution l b = some (-1)) ∧
    freqBinSizeCheckRejects 0 ∧ ¬ probBinSizeCheckRejects 0 := by
  refine ⟨?_, ?_, le_refl 0, lt_irrefl 0⟩
  · intro l b hb
    unfold DifferentialEntropyFromFrequencyDistribution
    rcases l with _ | ⟨x, xs⟩
    · rw [if_pos (by simp)]
    · rw [if_neg (by simp)]
      simp only [pyMin]
      by_cases hmin : xs.foldl min x < 0
      · rw [if_pos hmin]
      · rw [if_neg hmin, if_pos hb]
  · intro l b hb
    unfold DifferentialEntropyFromProbabilityDistribution
    by_cases hsum : round2 (l.sum * b) = 1
    · rcases l with _ | ⟨x, xs⟩
      · exfalso
        rw [List.sum_nil, zero_mul] at hsum
        rw [show round2 0 = 0 by norm_num [round2, pyRoundQ]] at hsum
        exact absurd hsum (by norm_num)
      · rw [if_neg (not_not_intro hsum)]
        simp only [pyMin]
        by_cases hmin : xs.foldl min x < 0
        · rw [if_pos hmin]
        · rw [if_neg hmin, if_pos hb]
    · rw [if_pos hsum]

/-- C9 witness: the two rejection statements applied at concrete inputs. -/
theorem binSizeCheck_asymmetry_witness :
    DifferentialEntropyFromFrequencyDistribution [1] 0 = some (-1) ∧
    DifferentialEntropyFromProbabilityDistribution [1] (-1) = some (-1) :=
  ⟨binSizeCheck_asymmetry.1 [1] 0 (le_refl 0),
   binSizeCheck_asymmetry.2.1 [1] (-1) (by norm_num [probBinSizeCheckRejects])⟩

/-- C10: EntropyFromFrequencyDistribution divides by the total without a
zero check; for every nonempty list of nonnegative entries at least one of
which is positive, the total is positive, the zero-divisor branch is not
taken, and the function returns a nonnegative entropy. -/
theorem frequencyDistribution_positive_total_safe (l : List ℚ)
    (h1 : l ≠ []) (h2 : ∀ x ∈ l, 0 ≤ x) (h3 : ∃ x ∈ l, 0 < x) :
    0 < l.sum ∧ ∃ v, EntropyFromFrequencyDistribution l = some v ∧ 0 ≤ v := by
  have hpos : 0 < l.sum := by
    rcases h3 with ⟨x, hx, hxpos⟩
    have hle := List.single_le_sum h2 x hx
    linarith
  refine ⟨hpos, entropyAcc (normalizeFreqs l), EFD_eq_some_entropy h1 h2 (ne_of_gt hpos), ?_⟩
  apply entropyAcc_nonneg
  intro p hp
  simp only [normalizeFreqs] at hp
  rcases List.mem_map.1 hp with ⟨f, hf, rfl⟩
  rw [div_le_one hpos]
  exact List.single_le_sum h2 f hf

/-- C10 witness: the theorem applied to the list [1, 1]. -/
theorem frequencyDistribution_positive_total_safe_witness :
    0 < ([1, 1] : List ℚ).sum ∧
      ∃ v, EntropyFromFrequencyDistribution [1, 1] = some v ∧ 0 ≤ v :=
  frequencyDistribution_positive_total_safe [1, 1] (by simp)
    (by intro x hx
        rcases List.mem_cons.1 hx with rfl | hx
        · norm_num
        · simp only [List.mem_singleton] at hx
          rw [hx]
          norm_num)
    ⟨1, by simp, by norm_num⟩

/-- C4 (code bug): on invalid inputs from the taxonomy the row-marginal
operation crashes instead of returning the sentinel. For the empty sequence
and rows = 1 the row totals are [0], and for [1, -1] with rows = 1 the single
row total is 0, so the delegated EntropyFromFrequencyDistribution divides
by a zero total and raises ZeroDivisionError (none) rather than return -1. -/
theorem entropyHX_crash_code_bug :
    EntropyHXFromFrequencyDistribution [] 1 = none ∧
    EntropyHXFromFrequencyDistribution [1, -1] 1 = none := by
  constructor
  · unfold EntropyHXFromFrequencyDistribution
    norm_num
    rw [show rowTotals [] 1 0 = [0] from by simp [rowTotals]]
    exact EFD_single_zero
  · unfold EntropyHXFromFrequencyDistribution
    norm_num
    rw [show rowTotals [1, -1] 1 2 = [0] from by
      simp [rowTotals, List.range_succ]]
    exact EFD_single_zero

lemma segment_eq (l : List ℚ) (s c : ℕ) (h : s + c ≤ l.length) :
    (List.range c).map (fun j => l.getD (s + j) 0) = (l.drop s).take c := by
  apply List.ext_getElem
  · simp only [List.length_map, List.length_range, List.length_take, List.length_drop]
    omega
  · intro i h1 h2
    simp only [List.length_map, List.length_range] at h1
    have hi : s + i < l.length := by omega
    rw [List.getElem_map, List.getElem_range, List.getElem_take, List.getElem_drop]
    exact List.getD_eq_getElem l 0 hi

lemma rowTotals_eq_reshape (l : List ℚ) (r c : ℕ) (hlen : r * c = l.length) :
    rowTotals l r c = (reshapeRows l r c).map List.sum := by
  unfold rowTotals reshapeRows
  rw [List.map_map]
  apply List.map_congr_left
  intro i hi
  simp only [List.mem_range] at hi
  simp only [Function.comp]
  rw [segment_eq l (i * c) c ?_]
  have h1 : (i + 1) * c ≤ r * c := Nat.mul_le_mul_right c hi
  rw [add_mul, one_mul] at h1
  omega

lemma columnTotals_eq_reshape (l : List ℚ) (r c : ℕ) (hlen : r * c = l.length) :
    columnTotals l r c =
      (List.range c).map
        (fun j => ((reshapeRows l r c).map (fun row => row.getD j 0)).sum) := by
  unfold columnTotals reshapeRows
  apply List.map_congr_left
  intro j hj
  simp only [List.mem_range] at hj
  rw [List.map_map]
  congr 1
  apply List.map_congr_left
  intro i hi
  simp only [List.mem_range] at hi
  simp only [Function.comp]
  have hseg : i * c + c ≤ l.length := by
    have h1 : (i + 1) * c ≤ r * c := Nat.mul_le_mul_right c hi
    rw [add_mul, one_mul] at h1
    omega
  rw [← segment_eq l (i * c) c hseg]
  have hjlen : j < ((List.range c).map (fun j2 => l.getD (i * c + j2) 0)).length := by
    simp only [List.length_map, List.length_range]
    exact hj
  rw [List.getD_eq_getElem _ 0 hjlen, List.getElem_map, List.getElem_range]

lemma guard_iff (l : List ℚ) (r : ℕ) :
    (l.length / r) * r = l.length ↔ r ∣ l.length := by
  constructor
  · intro h
    refine ⟨l.length / r, ?_⟩
    rw [mul_comm]
    exact h.symm
  · intro h
    exact Nat.div_mul_cancel h

lemma entropyHX_eq (l : List ℚ) (rows : ℤ) :
    EntropyHXFromFrequencyDistribution l rows =
      if (l.length / (max rows 1).toNat) * (max rows 1).toNat = l.length then
        EntropyFromFrequencyDistribution
          (rowTotals l (max rows 1).toNat (l.length / (max rows 1).toNat))
      else some (-1) := rfl

lemma entropyHY_eq (l : List ℚ) (rows : ℤ) :
    EntropyHYFromFrequencyDistribution l rows =
      if (l.length / (max rows 1).toNat) * (max rows 1).toNat = l.length then
        (List.range (l.length / (max rows 1).toNat)).foldl
          (fun st col =>
            st.bind (fun _ =>
              EntropyFromFrequencyDistribution
                ((columnTotals l (max rows 1).toNat
                    (l.length / (max rows 1).toNat)).take (col + 1))))
          (some (-1))
      else some (-1) := rfl

lemma entropyHYColumnsFirst_eq (l : List ℚ) (rows : ℤ) :
    EntropyHYColumnsFirst l rows =
      if (l.length / (max rows 1).toNat) * (max rows 1).toNat = l.length then
        EntropyFromFrequencyDistribution
          (columnTotals l (max rows 1).toNat (l.length / (max rows 1).toNat))
      else some (-1) := rfl

/-- C6: with the row count clamped to a minimum of 1, both marginal-entropy
operations return -1 whenever the clamped row count does not evenly divide
the sequence length; otherwise they work on an exact rows-by-columns
reshape in row-major order: the row totals delegated by HX are the sums of
the reshaped rows, and the column totals accumulated by HY are the
column-wise sums of the reshaped rows. -/
theorem reshape_divisibility_spec (l : List ℚ) (rows : ℤ) :
    (¬ ((max rows 1).toNat ∣ l.length) →
        EntropyHXFromFrequencyDistribution l rows = some (-1) ∧
        EntropyHYFromFrequencyDistribution l rows = some (-1)) ∧
    ((max rows 1).toNat ∣ l.length →
        EntropyHXFromFrequencyDistribution l rows =
          EntropyFromFrequencyDistribution
            ((reshapeRows l (max rows 1).toNat
                (l.length / (max rows 1).toNat)).map List.sum) ∧
        columnTotals l (max rows 1).toNat (l.length / (max rows 1).toNat) =
          (List.range (l.length / (max rows 1).toNat)).map
            (fun j =>
              ((reshapeRows l (max rows 1).toNat
                  (l.length / (max rows 1).toNat)).map
                  (fun row => row.getD j 0)).sum)) := by
  constructor
  · intro hdvd
    have hguard : ¬ ((l.length / (max rows 1).toNat) * (max rows 1).toNat = l.length) :=
      fun h => hdvd ((guard_iff l _).1 h)
    rw [entropyHX_eq, entropyHY_eq, if_neg hguard, if_neg hguard]
    exact ⟨rfl, rfl⟩
  · intro hdvd
    have hguard : (l.length / (max rows 1).toNat) * (max rows 1).toNat = l.length :=
      (guard_iff l _).2 hdvd
    have hlen : (max rows 1).toNat * (l.length / (max rows 1).toNat) = l.length := by
      rw [mul_comm]; exact hguard
    constructor
    · rw [entropyHX_eq, if_pos hguard, rowTotals_eq_reshape _ _ _ hlen]
    · exact columnTotals_eq_reshape _ _ _ hlen

/-- C6 witness: the non-divisible branch applied to a length-3 sequence with
two rows. -/
theorem reshape_divisibility_witness :
    EntropyHXFromFrequencyDistribution [1, 2, 3] 2 = some (-1) ∧
    EntropyHYFromFrequencyDistribution [1, 2, 3] 2 = some (-1) :=
  (reshape_divisibility_spec [1, 2, 3] 2).1 (by decide)

lemma countsList_sum {α : Type} [DecidableEq α] (l : List α) :
    (countsList l).sum = (l.length : ℚ) := by
  unfold countsList
  have h1 : l.dedup.map (fun v => (l.count v : ℚ)) =
      (l.dedup.map (fun v => l.count v)).map (fun n : ℕ => (n : ℚ)) := by
    rw [List.map_map]
    rfl
  rw [h1, ← Nat.cast_list_sum, List.sum_map_count_dedup_eq_length]

/-- C7: for every nonempty sample sequence, EntropyFromSampleDistribution
agrees with EntropyFromFrequencyDistribution applied to the occurrence
counts of the distinct values (and the frequency call cannot error or
crash on that input). -/
theorem sampleDistribution_matches_frequency {α : Type} [DecidableEq α]
    (l : List α) (h : l ≠ []) :
    EntropyFromFrequencyDistribution (countsList l) =
      some (EntropyFromSampleDistribution l) := by
  have hlen0 : 0 < l.length := List.length_pos.2 h
  have hded : l.dedup ≠ [] := fun hd => h ((List.dedup_eq_nil l).1 hd)
  have hne : countsList l ≠ [] := by
    unfold countsList
    simpa using hded
  have hnonneg : ∀ x ∈ countsList l, 0 ≤ x := by
    intro x hx
    unfold countsList at hx
    rcases List.mem_map.1 hx with ⟨v, hv, rfl⟩
    positivity
  have hsum : (countsList l).sum ≠ 0 := by
    rw [countsList_sum]
    have hq : (0 : ℚ) < (l.length : ℚ) := by exact_mod_cast hlen0
    exact ne_of_gt hq
  rw [EFD_eq_some_entropy hne hnonneg hsum]
  congr 1
  unfold normalizeFreqs
  rw [countsList_sum]
  unfold countsList
  rw [List.map_map]
  unfold EntropyFromSampleDistribution
  rw [if_neg (by omega)]
  rfl

/-- C7 witness: the nine-sample H/T example. The occurrence counts of the
distinct values are 7 for H and 2 for T (listed as [2, 7] in this
embedding's dedup order), the frequency entropy of those counts does not
depend on that order, and the equivalence theorem applies to the sample. -/
theorem sampleDistribution_matches_frequency_witness :
    countsList ["H", "T", "H", "T", "H", "H", "H", "H", "H"] = [2, 7] ∧
    EntropyFromFrequencyDistribution [2, 7] = EntropyFromFrequencyDistribution [7, 2] ∧
    EntropyFromFrequencyDistribution
        (countsList ["H", "T", "H", "T", "H", "H", "H", "H", "H"]) =
      some (EntropyFromSampleDistribution ["H", "T", "H", "T", "H", "H", "H", "H", "H"]) :=
  ⟨by decide,
   by
    rw [EFD_eq_some_entropy (by simp) (by norm_num) (by norm_num),
        EFD_eq_some_entropy (by simp) (by norm_num) (by norm_num)]
    have h1 : normalizeFreqs [2, 7] = [2 / 9, 7 / 9] := by norm_num [normalizeFreqs]
    have h2 : normalizeFreqs [7, 2] = [7 / 9, 2 / 9] := by norm_num [normalizeFreqs]
    rw [h1, h2, entropyAcc_eq_sum, entropyAcc_eq_sum]
    simp only [List.map_cons, List.map_nil, List.sum_cons, List.sum_nil, add_zero]
    ring_nf,
   sampleDistribution_matches_frequency ["H", "T", "H", "T", "H", "H", "H", "H", "H"]
     (by simp)⟩

lemma hyFold_take (T : List ℚ) (ht0 : T.getD 0 0 ≠ 0) :
    ∀ k, 1 ≤ k → k ≤ T.length →
      (List.range k).foldl
        (fun st col =>
          st.bind (fun _ => EntropyFromFrequencyDistribution (T.take (col + 1))))
        (some (-1)) = EntropyFromFrequencyDistribution (T.take k) := by
  intro k
  induction k with
  | zero => omega
  | succ n ih =>
    intro _ h2
    rcases Nat.eq_zero_or_pos n with rfl | hn
    · rw [show List.range 1 = [0] from rfl]
      simp only [List.foldl_cons, List.foldl_nil, Option.some_bind]
    · rw [List.range_succ, List.foldl_append, ih hn (by omega), List.foldl_cons,
        List.foldl_nil]
      have hmem : T.getD 0 0 ∈ T.take n := by
        rcases T with _ | ⟨t0, ts⟩
        · simp at h2
        · cases n with
          | zero => omega
          | succ m =>
            simp only [List.take_succ_cons, List.getD_cons_zero]
            exact List.mem_cons_self t0 _
      rcases EFD_isSome_of_mem hmem ht0 with ⟨v, hv⟩
      rw [hv, Option.some_bind]

/-- C5 (amended): whenever the divisibility check passes and, in the case of
at least two columns, the first column total is nonzero, the per-column
re-invocation of EntropyFromFrequencyDistribution inside the loop produces
exactly the same result (value, sentinel, or crash) as computing all column
totals first and invoking EntropyFromFrequencyDistribution once. The extra
condition is forced: with a zero first column total and a second column, the
loop's first intermediate call divides by a zero total and crashes where the
all-at-once form does not. -/
theorem entropyHY_columnsFirst_equiv (l : List ℚ) (rows : ℤ)
    (hguard : (l.length / (max rows 1).toNat) * (max rows 1).toNat = l.length)
    (hok : l.length / (max rows 1).toNat ≤ 1 ∨
      (columnTotals l (max rows 1).toNat (l.length / (max rows 1).toNat)).getD 0 0 ≠ 0) :
    EntropyHYFromFrequencyDistribution l rows = EntropyHYColumnsFirst l rows := by
  rw [entropyHY_eq, entropyHYColumnsFirst_eq, if_pos hguard, if_pos hguard]
  set r := (max rows 1).toNat with hr
  set c := l.length / r with hc
  set T := columnTotals l r c with hT
  have hTlen : T.length = c := by
    rw [hT]
    unfold columnTotals
    simp
  rcases Nat.lt_or_ge c 2 with hlt | hge
  · have hc01 : c = 0 ∨ c = 1 := by omega
    rcases hc01 with hc0 | hc1
    · rw [hc0]
      simp only [List.range_zero, List.foldl_nil]
      rw [show T = [] from List.length_eq_zero.1 (by omega), EFD_nil]
    · rw [hc1, show List.range 1 = [0] from rfl]
      simp only [List.foldl_cons, List.foldl_nil, Option.some_bind]
      rw [List.take_of_length_le (by omega)]
  · have ht0 : T.getD 0 0 ≠ 0 := by
      rcases hok with h | h
      · omega
      · exact h
    rw [hyFold_take T ht0 c (by omega) (by omega)]
    rw [List.take_of_length_le (by omega)]

/-- C5 counterexample: for the flat sequence [0, 1, 0, 1] with two rows the
divisibility check passes, the first column total is 0, and the loop's first
intermediate call EntropyFromFrequencyDistribution([0]) divides by a zero
total and crashes (none), while computing the full column totals [0, 2]
first and calling once returns the entropy 0: the two computations are not
equivalent in error/crash behaviour. -/
theorem entropyHY_incremental_counterexample :
    EntropyHYFromFrequencyDistribution [0, 1, 0, 1] 2 = none ∧
    EntropyHYColumnsFirst [0, 1, 0, 1] 2 = some 0 := by
  have hr2 : (max (2 : ℤ) 1).toNat = 2 := by decide
  have hct : columnTotals [0, 1, 0, 1] 2 2 = [0, 2] := by
    unfold columnTotals
    rw [show List.range 2 = [0, 1] from rfl]
    norm_num
  constructor
  · rw [entropyHY_eq, hr2, show ([0, 1, 0, 1] : List ℚ).length = 4 from rfl,
      show (4 / 2 : ℕ) = 2 from rfl, if_pos (by norm_num), hct,
      show List.range 2 = [0, 1] from rfl]
    simp only [List.foldl_cons, List.foldl_nil, Option.some_bind]
    rw [show ([0, 2] : List ℚ).take (0 + 1) = [0] from rfl, EFD_single_zero]
    rfl
  · rw [entropyHYColumnsFirst_eq, hr2, show ([0, 1, 0, 1] : List ℚ).length = 4 from rfl,
      show (4 / 2 : ℕ) = 2 from rfl, if_pos (by norm_num), hct]
    exact EFD_zero_two

/-- C5 witness: the amended equivalence applied to [1, 1, 1, 1] with two
rows, where both column totals are 2. -/
theorem entropyHY_columnsFirst_equiv_witness :
    EntropyHYFromFrequencyDistribution [1, 1, 1, 1] 2 =
      EntropyHYColumnsFirst [1, 1, 1, 1] 2 :=
  entropyHY_columnsFirst_equiv [1, 1, 1, 1] 2 (by decide)
    (Or.inr (by
      rw [show (max (2 : ℤ) 1).toNat = 2 from by decide,
        show ([1, 1, 1, 1] : List ℚ).length = 4 from rfl,
        show (4 / 2 : ℕ) = 2 from rfl,
        show columnTotals [1, 1, 1, 1] 2 2 = [2, 2] from by
          unfold columnTotals
          rw [show List.range 2 = [0, 1] from rfl]
          norm_num]
      norm_num))

lemma entropyHX_neg_example :
    EntropyHXFromFrequencyDistribution [2, -1, 0, 1] 2 = some 1 := by
  rw [entropyHX_eq, show (max (2 : ℤ) 1).toNat = 2 from by decide,
    show ([2, -1, 0, 1] : List ℚ).length = 4 from rfl,
    show (4 / 2 : ℕ) = 2 from rfl, if_pos (by norm_num),
    show rowTotals [2, -1, 0, 1] 2 2 = [1, 1] from by
      unfold rowTotals
      rw [show List.range 2 = [0, 1] from rfl]
      norm_num]
  exact EFD_pair_one_one

lemma entropyHY_neg_example :
    EntropyHYFromFrequencyDistribution [2, -1, 0, 1] 2 = some 0 := by
  rw [entropyHY_eq, show (max (2 : ℤ) 1).toNat = 2 from by decide,
    show ([2, -1, 0, 1] : List ℚ).length = 4 from rfl,
    show (4 / 2 : ℕ) = 2 from rfl, if_pos (by norm_num),
    show columnTotals [2, -1, 0, 1] 2 2 = [2, 0] from by
      unfold columnTotals
      rw [show List.range 2 = [0, 1] from rfl]
      norm_num,
    show List.range 2 = [0, 1] from rfl]
  simp only [List.foldl_cons, List.foldl_nil, Option.some_bind]
  rw [show ([2, 0] : List ℚ).take (0 + 1) = [2] from rfl, EFD_single_two,
    Option.some_bind, show ([2, 0] : List ℚ).take (1 + 1) = [2, 0] from rfl]
  exact EFD_two_zero

/-- C2 counterexample: for [2, -1, 0, 1] with two rows, HXY errors to -1
(the flat list has a negative entry) while HX = 1 and HY = 0 succeed on the
nonnegative row and column totals. The returned dictionary carries
HY|X = RoundSF(HXY - HX, 3) = -2 ≠ -1 even though its prerequisite HXY is
the sentinel: the guard checks only HX, refuting the claim as stated. -/
theorem entropyValues_HXY_guard_counterexample :
    EntropyFromFrequencyDistribution [2, -1, 0, 1] = some (-1) ∧
    EntropyValuesFromFrequencyDistribution [2, -1, 0, 1] 2 =
      some (EntropyBundle.mk (-1) 1 0 (-1) (-2) (-1)) ∧
    ((-2 : ℝ) ≠ -1) := by
  have hxy4 : EntropyFromFrequencyDistribution [2, -1, 0, 1] = some (-1) :=
    EFD_neg_entry ⟨-1, by norm_num, by norm_num⟩
  refine ⟨hxy4, ?_, by norm_num⟩
  unfold EntropyValuesFromFrequencyDistribution
  rw [hxy4, entropyHX_neg_example, entropyHY_neg_example]
  simp only [Option.some_bind]
  congr 1
  rw [if_neg (by norm_num : ¬ ((0 : ℝ) = -1)), if_neg (by norm_num : ¬ ((1 : ℝ) = -1)),
    if_neg (by simp : ¬ ((1 : ℝ) ≠ -1 ∧ (0 : ℝ) ≠ -1 ∧ (-1 : ℝ) ≠ -1)),
    show (-1 : ℝ) - 0 = -1 by norm_num, show (-1 : ℝ) - 1 = -2 by norm_num,
    RoundSF_neg_one, RoundSF_one, RoundSF_neg_two, RoundSF_zero]

/-- C2 (amended): in the returned dictionary, HY|X is -1 whenever HX is -1
and otherwise equals RoundSF(HXY - HX, 3); HX|Y is -1 whenever HY is -1 and
otherwise equals RoundSF(HXY - HY, 3); IXY is -1 whenever any of HXY, HX,
HY is -1 and otherwise equals RoundSF(HX + HY - HXY, 3). The -1 guards for
HY|X and HX|Y test only the subtracted marginal, not HXY. -/
theorem entropyValues_sentinel_propagation (l : List ℚ) (rows : ℤ)
    (hxy hx hy : ℝ) (b : EntropyBundle)
    (hHXY : EntropyFromFrequencyDistribution l = some hxy)
    (hHX : EntropyHXFromFrequencyDistribution l rows = some hx)
    (hHY : EntropyHYFromFrequencyDistribution l rows = some hy)
    (hb : EntropyValuesFromFrequencyDistribution l rows = some b) :
    (hx = -1 → b.HYgX = -1) ∧ (hy = -1 → b.HXgY = -1) ∧
    ((hx = -1 ∨ hy = -1 ∨ hxy = -1) → b.IXY = -1) ∧
    (hx ≠ -1 → b.HYgX = RoundSF (hxy - hx) 3) ∧
    (hy ≠ -1 → b.HXgY = RoundSF (hxy - hy) 3) ∧
    (hx ≠ -1 ∧ hy ≠ -1 ∧ hxy ≠ -1 → b.IXY = RoundSF (hx + hy - hxy) 3) := by
  unfold EntropyValuesFromFrequencyDistribution at hb
  rw [hHXY, hHX, hHY] at hb
  simp only [Option.some_bind, Option.some.injEq] at hb
  subst hb
  refine ⟨?_, ?_, ?_, ?_, ?_, ?_⟩
  · intro h
    show RoundSF (if hx = -1 then -1 else hxy - hx) 3 = -1
    rw [if_pos h, RoundSF_neg_one]
  · intro h
    show RoundSF (if hy = -1 then -1 else hxy - hy) 3 = -1
    rw [if_pos h, RoundSF_neg_one]
  · intro h
    show RoundSF (if hx ≠ -1 ∧ hy ≠ -1 ∧ hxy ≠ -1 then hx + hy - hxy else -1) 3 = -1
    rw [if_neg (by tauto), RoundSF_neg_one]
  · intro h
    show RoundSF (if hx = -1 then -1 else hxy - hx) 3 = RoundSF (hxy - hx) 3
    rw [if_neg h]
  · intro h
    show RoundSF (if hy = -1 then -1 else hxy - hy) 3 = RoundSF (hxy - hy) 3
    rw [if_neg h]
  · intro h
    show RoundSF (if hx ≠ -1 ∧ hy ≠ -1 ∧ hxy ≠ -1 then hx + hy - hxy else -1) 3 =
      RoundSF (hx + hy - hxy) 3
    rw [if_pos h]

lemma entropyHX_two_two_three :
    EntropyHXFromFrequencyDistribution [2, 2] 3 = some (-1) := by
  rw [entropyHX_eq, if_neg (by decide)]

lemma entropyHY_two_two_three :
    EntropyHYFromFrequencyDistribution [2, 2] 3 = some (-1) := by
  rw [entropyHY_eq, if_neg (by decide)]

lemma entropyValues_two_two_three :
    EntropyValuesFromFrequencyDistribution [2, 2] 3 =
      some (EntropyBundle.mk 1 (-1) (-1) (-1) (-1) (-1)) := by
  unfold EntropyValuesFromFrequencyDistribution
  rw [EFD_pair_two_two, entropyHX_two_two_three, entropyHY_two_two_three]
  simp only [Option.some_bind]
  congr 1
  rw [if_pos trivial,
    if_neg (by simp : ¬ ((-1 : ℝ) ≠ -1 ∧ (-1 : ℝ) ≠ -1 ∧ (1 : ℝ) ≠ -1)),
    RoundSF_neg_one, RoundSF_one]

/-- C2 witness: the amended propagation statement applied to [2, 2] with
three requested rows, where the reshape fails so HX = HY = -1 while
HXY = 1; the dependent HY|X field of the returned dictionary is -1. -/
theorem entropyValues_sentinel_propagation_witness :
    (EntropyBundle.mk 1 (-1) (-1) (-1) (-1) (-1)).HYgX = -1 :=
  (entropyValues_sentinel_propagation [2, 2] 3 1 (-1) (-1)
      (EntropyBundle.mk 1 (-1) (-1) (-1) (-1) (-1))
      EFD_pair_two_two entropyHX_two_two_three entropyHY_two_two_three
      entropyValues_two_two_three).1 rfl

lemma floor_logb10_eq {x : ℝ} (k : ℤ) (h1 : (10 : ℝ) ^ k ≤ x)
    (h2 : x < (10 : ℝ) ^ (k + 1)) : ⌊Real.logb 10 x⌋ = k := by
  have hx : 0 < x := lt_of_lt_of_le (by positivity) h1
  rw [Int.floor_eq_iff]
  refine ⟨?_, ?_⟩
  · rw [Real.le_logb_iff_rpow_le (by norm_num : (1 : ℝ) < 10) hx, Real.rpow_intCast]
    exact h1
  · have hlt : Real.logb 10 x < ((k + 1 : ℤ) : ℝ) := by
      rw [Real.logb_lt_iff_lt_rpow (by norm_num : (1 : ℝ) < 10) hx, Real.rpow_intCast]
      exact h2
    calc Real.logb 10 x < ((k + 1 : ℤ) : ℝ) := hlt
      _ = (k : ℝ) + 1 := by push_cast; ring

/-- C8: RoundSF returns 0 on 0 and otherwise rounds to the decimal place
sigfigs - 1 - floor(log10 |num|); in particular RoundSF(0.012345, 3) =
0.0123, RoundSF(12345, 3) = 12300 and RoundSF(0, 3) = 0. -/
theorem roundSF_spec :
    RoundSF 0 3 = 0 ∧
    RoundSF (12345 / 1000000 : ℝ) 3 = (123 / 10000 : ℝ) ∧
    RoundSF (12345 : ℝ) 3 = (12300 : ℝ) ∧
    ∀ (num : ℝ) (s : ℤ), num ≠ 0 →
      RoundSF num s =
        (pyRound (num * 10 ^ (s - 1 - ⌊Real.logb 10 |num|⌋)) : ℝ) /
          10 ^ (s - 1 - ⌊Real.logb 10 |num|⌋) := by
  refine ⟨RoundSF_zero 3, ?_, ?_, ?_⟩
  · have hf : ⌊Real.logb 10 |(12345 / 1000000 : ℝ)|⌋ = -2 := by
      rw [show |(12345 / 1000000 : ℝ)| = 12345 / 1000000 from by
        rw [abs_of_pos]; norm_num]
      apply floor_logb10_eq
      · norm_num
      · norm_num
    unfold RoundSF
    rw [if_neg (by norm_num), hf,
      show (-((-2 : ℤ) - (3 - 1))) = (4 : ℤ) from by norm_num,
      show (12345 / 1000000 : ℝ) * 10 ^ (4 : ℤ) = 2469 / 20 from by norm_num]
    unfold pyRound
    rw [if_neg (by norm_num), show (2469 / 20 : ℝ) + 1 / 2 = 2479 / 20 from by norm_num,
      show ⌊(2479 / 20 : ℝ)⌋ = 123 from by norm_num [Int.floor_eq_iff]]
    norm_num
  · have hf : ⌊Real.logb 10 |(12345 : ℝ)|⌋ = 4 := by
      rw [show |(12345 : ℝ)| = 12345 from by rw [abs_of_pos]; norm_num]
      apply floor_logb10_eq
      · norm_num
      · norm_num
    unfold RoundSF
    rw [if_neg (by norm_num), hf,
      show (-((4 : ℤ) - (3 - 1))) = (-2 : ℤ) from by norm_num,
      show (12345 : ℝ) * 10 ^ (-2 : ℤ) = 2469 / 20 from by
        rw [show ((-2 : ℤ)) = -(2 : ℤ) from rfl, zpow_neg]
        norm_num]
    unfold pyRound
    rw [if_neg (by norm_num), show (2469 / 20 : ℝ) + 1 / 2 = 2479 / 20 from by norm_num,
      show ⌊(2479 / 20 : ℝ)⌋ = 123 from by norm_num [Int.floor_eq_iff],
      show ((123 : ℤ) : ℝ) = 123 from by norm_num,
      show ((10 : ℝ) ^ (-2 : ℤ)) = 1 / 100 from by
        rw [show ((-2 : ℤ)) = -(2 : ℤ) from rfl, zpow_neg]
        norm_num]
    norm_num
  · intro num s hnum
    unfold RoundSF
    rw [if_neg hnum, show -(⌊Real.logb 10 |num|⌋ - (s - 1)) = s - 1 - ⌊Real.logb 10 |num|⌋
      from by ring]

/-- C8 witness: the nonzero-case formula applied at num = 2, sigfigs = 3. -/
theorem roundSF_spec_witness :
    RoundSF (2 : ℝ) 3 =
      (pyRound ((2 : ℝ) * 10 ^ ((3 : ℤ) - 1 - ⌊Real.logb 10 |(2 : ℝ)|⌋)) : ℝ) /
        10 ^ ((3 : ℤ) - 1 - ⌊Real.logb 10 |(2 : ℝ)|⌋) :=
  roundSF_spec.2.2.2 2 3 (by norm_num)
